import Mathlib

/-!
Verification development for the eo-learn workflow execution framework.

The repository sample contains the concrete feature-manipulation tasks
(`core_tasks.py`) together with the test suites of the workflow engine
(`EOWorkflow`, `EOExecutor`).  The engine itself (graph construction,
topological ordering, the executor and its reporting interface) is not part
of the sample, so it is modelled here from the specification; the
feature-manipulation tasks are embedded directly from `core_tasks.py`.

Machine integers do not occur: task identities are natural numbers and all
payload values are opaque.
-/

namespace EOLearn

/-- Task identity: unique within a graph (spec §3, "TaskNode: identity
(unique within a graph)").  Distinct task objects are modelled by distinct
naturals. -/
abbrev TaskId := Nat

/-- Modelled from the spec: a graph-construction entry, "a pairing of a task
with an ordered list of its input tasks" (spec §6); a bare task is the pair
with an empty input list. -/
abbrev Entry := TaskId × List TaskId

/-- Boolean list membership for task identities. -/
def memB (a : Nat) : List Nat → Bool
  | [] => false
  | b :: t => if b = a then true else memB a t

/-- The declared task identities of a collection of entries, in declaration
order. -/
def declaredTasks (es : List Entry) : List TaskId :=
  es.map (fun e => e.1)

/-- The dependency-edge relation of a collection of entries: `hasEdge es a b`
holds when some entry declares task `b` with `a` among its inputs (data flows
from `a` to `b`). -/
def hasEdge (es : List Entry) (a b : TaskId) : Bool :=
  es.any (fun e => decide (e.1 = b) && memB a e.2)

/-- Walk predicate: `chainB es a l` holds when, starting from `a`, the list `l` is a walk along
dependency edges (each step follows one edge). -/
def chainB (es : List Entry) : TaskId → List TaskId → Bool
  | _, [] => true
  | a, b :: t => hasEdge es a b && chainB es b t

/-- A cycle in the edge relation: a nonempty walk from a node back to
itself. -/
def isCycleB (es : List Entry) : List TaskId → Bool
  | [] => false
  | v :: t => chainB es v (t ++ [v])

/-- Modelled from the spec: construction "rejects any edge referencing a task
not present among the declared entries" (spec §4.1); this check passes when
every referenced input is declared. -/
def wellFormedB (es : List Entry) : Bool :=
  es.all (fun e => e.2.all (fun i => memB i (declaredTasks es)))

/-- An entry is ready once all of its inputs have been placed in the order
being built. -/
def ready (placed : List TaskId) (e : Entry) : Bool :=
  e.2.all (fun i => memB i placed)

/-- Scan the pending entries in declaration order and extract the first ready
one, returning it together with the remaining entries.  The first-match scan
realises "ties among nodes with no remaining unresolved dependency are broken
by declaration order" (spec §4.1). -/
def splitReady (placed : List TaskId) : List Entry → Option (Entry × List Entry)
  | [] => none
  | e :: rest =>
    if ready placed e then some (e, rest)
    else
      match splitReady placed rest with
      | none => none
      | some (f, l) => some (f, e :: l)

/-- Modelled from the spec: the topological-ordering loop of `WorkflowGraph`
construction (spec §4.1).  Repeatedly places the declaration-first entry all
of whose inputs are already placed; if no entry is ready while some are
pending, a dependency cycle exists and the loop reports failure (`none`).
The fuel argument equals the number of pending entries. -/
def kahnLoop : Nat → List Entry → List TaskId → Option (List TaskId)
  | 0, pending, placed => if pending.isEmpty then some placed else none
  | fuel + 1, pending, placed =>
    match pending with
    | [] => some placed
    | _ :: _ =>
      match splitReady placed pending with
      | none => none
      | some (e, rest) => kahnLoop fuel rest (placed ++ [e.1])

/-- Modelled from the spec: `GraphError` is "raised at WorkflowGraph
construction: unknown input reference, or cycle detected" (spec §7). -/
inductive GraphError
  | undeclaredInput
  | cyclicDependencies
deriving DecidableEq, Repr

/-- Modelled from the spec: a built workflow graph owns its entries and the
topological execution order computed once at construction (spec §3). -/
structure WorkflowGraph where
  entries : List Entry
  order : List TaskId
deriving DecidableEq, Repr

/-- Modelled from the spec: `WorkflowGraph` construction (spec §4.1).  It
rejects references to undeclared tasks, fails on dependency cycles, and
otherwise returns the graph with its deterministic topological order. -/
def WorkflowGraph.build (es : List Entry) : Except GraphError WorkflowGraph :=
  if wellFormedB es then
    match kahnLoop es.length es [] with
    | some ord => .ok ⟨es, ord⟩
    | none => .error .cyclicDependencies
  else .error .undeclaredInput

/-- Position of the first occurrence of a task in an order (length of the
order if absent). -/
def posOf (a : TaskId) : List TaskId → Nat
  | [] => 0
  | b :: t => if b = a then 0 else posOf a t + 1

/-- An order respects the declared edges when every task is placed strictly
after each of its declared inputs. -/
def respectsB (es : List Entry) (ord : List TaskId) : Bool :=
  es.all (fun e => e.2.all (fun i => decide (posOf i ord < posOf e.1 ord)))

/-- The declaration-first ready entry among the entries not yet placed. -/
def firstReady (es : List Entry) (placed : List TaskId) : Option Entry :=
  (es.filter (fun e => !(memB e.1 placed))).find? (ready placed)

/-- The order arises from the greedy declaration-order rule: at every
position, the task placed is the declaration-first one among those not yet
placed whose inputs all occur earlier.  This is the tie-breaking rule of
spec §4.1 and makes the order reproducible across constructions. -/
def greedyOrder (es : List Entry) (ord : List TaskId) : Prop :=
  ∀ k, ord.length ≤ k ∨ (firstReady es (ord.take k)).map (fun e => e.1) = ord[k]?

/-! ### Basic lemmas about the list helpers -/

theorem memB_iff (a : Nat) : ∀ l : List Nat, memB a l = true ↔ a ∈ l := by
  intro l
  induction l with
  | nil => simp [memB]
  | cons b t ih =>
    by_cases hba : b = a
    · subst hba; simp [memB]
    · simp [memB, hba, ih, Ne.symm hba]

theorem memB_append (a : Nat) (l₁ l₂ : List Nat) :
    memB a (l₁ ++ l₂) = (memB a l₁ || memB a l₂) := by
  induction l₁ with
  | nil => simp [memB]
  | cons b t ih =>
    by_cases hba : b = a <;> simp [memB, hba, ih]

theorem posOf_append_of_mem {a : Nat} {l₁ : List Nat} (l₂ : List Nat)
    (h : a ∈ l₁) : posOf a (l₁ ++ l₂) = posOf a l₁ := by
  induction l₁ with
  | nil => cases h
  | cons b t ih =>
    by_cases hba : b = a
    · simp [posOf, hba]
    · have ht : a ∈ t := by
        rcases List.mem_cons.mp h with h' | h'
        · exact absurd h'.symm hba
        · exact h'
      simp [posOf, hba, ih ht]

theorem posOf_lt_length {a : Nat} {l : List Nat} (h : a ∈ l) :
    posOf a l < l.length := by
  induction l with
  | nil => cases h
  | cons b t ih =>
    by_cases hba : b = a
    · simp [posOf, hba]
    · have ht : a ∈ t := by
        rcases List.mem_cons.mp h with h' | h'
        · exact absurd h'.symm hba
        · exact h'
      simp only [posOf, hba, if_false, List.length_cons]
      exact Nat.succ_lt_succ (ih ht)

theorem posOf_append_of_not_mem {a : Nat} {l₁ : List Nat} (l₂ : List Nat)
    (h : a ∉ l₁) : posOf a (l₁ ++ l₂) = l₁.length + posOf a l₂ := by
  induction l₁ with
  | nil => simp
  | cons b t ih =>
    have hba : b ≠ a := fun hb => h (by simp [hb])
    have ht : a ∉ t := fun hmem => h (List.mem_cons_of_mem _ hmem)
    show posOf a (b :: (t ++ l₂)) = (b :: t).length + posOf a l₂
    simp only [posOf, hba, if_false, List.length_cons]
    rw [ih ht]
    omega

theorem posOf_cons_self (a : Nat) (l : List Nat) : posOf a (a :: l) = 0 := by
  simp [posOf]

/-! ### Lemmas about the edge relation and walks -/

theorem hasEdge_spec {es : List Entry} {a b : TaskId} :
    hasEdge es a b = true ↔ ∃ e ∈ es, e.1 = b ∧ a ∈ e.2 := by
  simp [hasEdge, List.any_eq_true, memB_iff]

theorem hasEdge_of_entry {es : List Entry} {e : Entry} {a : TaskId}
    (he : e ∈ es) (ha : a ∈ e.2) : hasEdge es a e.1 = true :=
  hasEdge_spec.mpr ⟨e, he, rfl, ha⟩

/-- Every node of a closed walk `a :: l ++ [b]` other than the final target
has an outgoing edge: the start has one, and so does every element of `l`. -/
theorem chainB_out {es : List Entry} :
    ∀ (l : List TaskId) (a b : TaskId), chainB es a (l ++ [b]) = true →
      (∃ w, hasEdge es a w = true) ∧ ∀ x ∈ l, ∃ w, hasEdge es x w = true := by
  intro l
  induction l with
  | nil =>
    intro a b h
    simp only [List.nil_append, chainB, Bool.and_eq_true] at h
    exact ⟨⟨b, h.1⟩, by simp⟩
  | cons c t ih =>
    intro a b h
    simp only [List.cons_append, chainB, Bool.and_eq_true] at h
    obtain ⟨hac, hrest⟩ := h
    obtain ⟨hcout, htout⟩ := ih c b hrest
    refine ⟨⟨c, hac⟩, ?_⟩
    intro x hx
    rcases List.mem_cons.mp hx with rfl | hx'
    · exact hcout
    · exact htout x hx'

/-- If every dependency edge of `es` runs from `a₀` to `b₀` with
`a₀ ≠ b₀`, the edge relation has no cycle. -/
theorem no_cycle_of_single_edge {es : List Entry} {a₀ b₀ : TaskId}
    (h : ∀ a b, hasEdge es a b = true → a = a₀ ∧ b = b₀) (hne : a₀ ≠ b₀) :
    ∀ l, isCycleB es l = false := by
  intro l
  cases hcy : isCycleB es l
  · rfl
  · exfalso
    match l, hcy with
    | v :: t, hcy =>
      simp only [isCycleB] at hcy
      obtain ⟨hout, htail⟩ := chainB_out t v v hcy
      cases t with
      | nil =>
        simp only [List.nil_append, chainB, Bool.and_eq_true] at hcy
        obtain ⟨hvv, -⟩ := hcy
        obtain ⟨hv, hv'⟩ := h v v hvv
        exact hne (hv ▸ hv')
      | cons w t' =>
        simp only [List.cons_append, chainB, Bool.and_eq_true] at hcy
        obtain ⟨hvw, -⟩ := hcy
        obtain ⟨hv, hw⟩ := h v w hvw
        obtain ⟨u, hu⟩ := htail w (by simp)
        have hw' : w = a₀ := (h w u hu).1
        exact hne (hw' ▸ hw)

/-! ### Lemmas about the topological-ordering loop -/

theorem splitReady_eq_none {placed : List TaskId} :
    ∀ {pending : List Entry}, splitReady placed pending = none →
      ∀ f ∈ pending, ready placed f = false := by
  intro pending
  induction pending with
  | nil => intro _ f hf; cases hf
  | cons p ps ih =>
    intro h f hf
    by_cases hp : ready placed p
    · simp [splitReady, hp] at h
    · simp only [splitReady, hp, if_false] at h
      rcases List.mem_cons.mp hf with rfl | hf'
      · exact Bool.eq_false_iff.mpr hp
      · cases hsp : splitReady placed ps with
        | none => exact ih hsp f hf'
        | some pr => rw [hsp] at h; cases h

theorem splitReady_eq_some {placed : List TaskId} :
    ∀ {pending : List Entry} {e : Entry} {rest : List Entry},
      splitReady placed pending = some (e, rest) →
      ∃ l₁ l₂, pending = l₁ ++ e :: l₂ ∧ rest = l₁ ++ l₂ ∧
        ready placed e = true ∧ ∀ f ∈ l₁, ready placed f = false := by
  intro pending
  induction pending with
  | nil => intro e rest h; cases h
  | cons p ps ih =>
    intro e rest h
    by_cases hp : ready placed p
    · simp only [splitReady, hp, if_true, Option.some.injEq, Prod.mk.injEq] at h
      obtain ⟨rfl, rfl⟩ := h
      exact ⟨[], ps, by simp, by simp, hp, by simp⟩
    · simp only [splitReady, hp, if_false] at h
      cases hsp : splitReady placed ps with
      | none => rw [hsp] at h; cases h
      | some pr =>
        rw [hsp] at h
        obtain ⟨f, l⟩ := pr
        simp only [Option.some.injEq, Prod.mk.injEq] at h
        obtain ⟨rfl, rfl⟩ := h
        obtain ⟨l₁, l₂, hps, hl, hready, hnot⟩ := ih hsp
        refine ⟨p :: l₁, l₂, by simp [hps], by simp [hl], hready, ?_⟩
        intro f' hf'
        rcases List.mem_cons.mp hf' with rfl | hf''
        · exact Bool.eq_false_iff.mpr hp
        · exact hnot f' hf''

theorem splitReady_find {placed : List TaskId} :
    ∀ {pending : List Entry} {e : Entry} {rest : List Entry},
      splitReady placed pending = some (e, rest) →
      pending.find? (ready placed) = some e := by
  intro pending
  induction pending with
  | nil => intro e rest h; cases h
  | cons p ps ih =>
    intro e rest h
    by_cases hp : ready placed p
    · simp only [splitReady, hp, if_true, Option.some.injEq, Prod.mk.injEq] at h
      obtain ⟨rfl, rfl⟩ := h
      simp [List.find?, hp]
    · simp only [splitReady, hp, if_false] at h
      cases hsp : splitReady placed ps with
      | none => rw [hsp] at h; cases h
      | some pr =>
        rw [hsp] at h
        obtain ⟨f, l⟩ := pr
        simp only [Option.some.injEq, Prod.mk.injEq] at h
        obtain ⟨rfl, -⟩ := h
        simp only [List.find?, Bool.eq_false_iff.mpr hp]
        exact ih hsp

theorem kahnLoop_extends :
    ∀ (fuel : Nat) (pending : List Entry) (placed ord : List TaskId),
      kahnLoop fuel pending placed = some ord → ∃ t, ord = placed ++ t := by
  intro fuel
  induction fuel with
  | zero =>
    intro pending placed ord h
    simp only [kahnLoop] at h
    by_cases hp : pending.isEmpty
    · rw [if_pos hp] at h
      exact ⟨[], by simpa using h.symm⟩
    · rw [if_neg hp] at h; cases h
  | succ n ih =>
    intro pending placed ord h
    cases pending with
    | nil => exact ⟨[], by simpa [kahnLoop] using h.symm⟩
    | cons p ps =>
      simp only [kahnLoop] at h
      cases hsp : splitReady placed (p :: ps) with
      | none => rw [hsp] at h; cases h
      | some pr =>
        rw [hsp] at h
        obtain ⟨e, rest⟩ := pr
        obtain ⟨t, ht⟩ := ih rest (placed ++ [e.1]) ord h
        exact ⟨e.1 :: t, by simp [ht]⟩

/-- Soundness of the ordering loop: on success the produced order extends
`placed` with exactly the identities of the pending entries, and every
pending entry ends up strictly after all of its inputs. -/
theorem kahnLoop_sound :
    ∀ (fuel : Nat) (pending : List Entry) (placed ord : List TaskId),
      (∀ x, x ∈ declaredTasks pending → x ∉ placed) →
      (declaredTasks pending).Nodup →
      kahnLoop fuel pending placed = some ord →
      ∃ tail, ord = placed ++ tail ∧ tail.Perm (declaredTasks pending) ∧
        ∀ e ∈ pending, ∀ i ∈ e.2, posOf i ord < posOf e.1 ord := by
  intro fuel
  induction fuel with
  | zero =>
    intro pending placed ord hdis hnd h
    simp only [kahnLoop] at h
    by_cases hp : pending.isEmpty
    · rw [if_pos hp] at h
      rw [List.isEmpty_iff] at hp
      subst hp
      refine ⟨[], by simpa using h.symm, by simp [declaredTasks], ?_⟩
      intro e he; cases he
    · rw [if_neg hp] at h; cases h
  | succ n ih =>
    intro pending placed ord hdis hnd h
    cases pending with
    | nil =>
      refine ⟨[], by simpa [kahnLoop] using h.symm, by simp [declaredTasks], ?_⟩
      intro e he; cases he
    | cons p ps =>
      simp only [kahnLoop] at h
      cases hsp : splitReady placed (p :: ps) with
      | none => rw [hsp] at h; cases h
      | some pr =>
        rw [hsp] at h
        obtain ⟨e, rest⟩ := pr
        obtain ⟨l₁, l₂, hpend, hrest, hready, -⟩ := splitReady_eq_some hsp
        have hmape : declaredTasks (l₁ ++ e :: l₂) =
            declaredTasks l₁ ++ e.1 :: declaredTasks l₂ := by
          simp [declaredTasks]
        have hmapr : declaredTasks rest = declaredTasks l₁ ++ declaredTasks l₂ := by
          simp [declaredTasks, hrest]
        have hnd' : (declaredTasks (p :: ps)).Nodup := hnd
        rw [hpend, hmape] at hnd'
        have he1notl : e.1 ∉ declaredTasks l₁ ++ declaredTasks l₂ := by
          intro hmem
          rcases List.mem_append.mp hmem with h1 | h2
          · exact (List.disjoint_of_nodup_append hnd') h1 (by simp)
          · have hsub : (e.1 :: declaredTasks l₂).Nodup :=
              List.Nodup.sublist (List.sublist_append_right _ _) hnd'
            exact (List.nodup_cons.mp hsub).1 h2
        have hepend : e.1 ∈ declaredTasks (p :: ps) := by
          rw [hpend, hmape]; simp
        have hdisrest : ∀ x, x ∈ declaredTasks rest → x ∉ placed ++ [e.1] := by
          intro x hx
          rw [hmapr] at hx
          have hxpend : x ∈ declaredTasks (p :: ps) := by
            rw [hpend, hmape]
            rcases List.mem_append.mp hx with h1 | h2
            · exact List.mem_append.mpr (Or.inl h1)
            · exact List.mem_append.mpr (Or.inr (List.mem_cons_of_mem _ h2))
          intro hmem
          rcases List.mem_append.mp hmem with h1 | h2
          · exact hdis x hxpend h1
          · have : x = e.1 := by simpa using h2
            exact he1notl (this ▸ hx)
        have hndrest : (declaredTasks rest).Nodup := by
          rw [hmapr]
          exact List.Nodup.sublist (by simp) hnd'
        obtain ⟨tail', hord, hperm, hresp⟩ := ih rest (placed ++ [e.1]) ord hdisrest hndrest h
        have hordeq : ord = placed ++ e.1 :: tail' := by
          rw [hord]; simp
        refine ⟨e.1 :: tail', hordeq, ?_, ?_⟩
        · rw [hpend, hmape]
          have h1 : (e.1 :: tail').Perm (e.1 :: (declaredTasks l₁ ++ declaredTasks l₂)) := by
            have h2 := hperm
            rw [hmapr] at h2
            exact h2.cons _
          exact h1.trans List.perm_middle.symm
        · intro f hf i hi
          have hfsplit : f ∈ l₁ ∨ f = e ∨ f ∈ l₂ := by
            rw [hpend] at hf
            rcases List.mem_append.mp hf with h1 | h2
            · exact Or.inl h1
            · rcases List.mem_cons.mp h2 with h3 | h4
              · exact Or.inr (Or.inl h3)
              · exact Or.inr (Or.inr h4)
          rcases hfsplit with h1 | h2 | h3
          · exact hresp f (by rw [hrest]; exact List.mem_append.mpr (Or.inl h1)) i hi
          · subst h2
            have hiplaced : i ∈ placed := by
              have := List.all_eq_true.mp hready i hi
              exact (memB_iff i placed).mp (by simpa using this)
            have hfnot : f.1 ∉ placed := hdis f.1 hepend
            rw [hordeq]
            rw [posOf_append_of_mem _ hiplaced, posOf_append_of_not_mem _ hfnot,
              posOf_cons_self]
            have := posOf_lt_length hiplaced
            omega
          · exact hresp f (by rw [hrest]; exact List.mem_append.mpr (Or.inr h3)) i hi

/-! ### A stalled ordering loop exposes a dependency cycle -/

/-- Final node of the walk `a :: l`. -/
def pathEnd (a : Nat) : List Nat → Nat
  | [] => a
  | b :: t => pathEnd b t

/-- The descending sample `[v (b+n-1), ..., v (b+1), v b]` of a sequence. -/
def stepsDown (v : Nat → Nat) (b : Nat) : Nat → List Nat
  | 0 => []
  | n + 1 => v (b + n) :: stepsDown v b n

theorem pathEnd_append_last (c : Nat) :
    ∀ (l : List Nat) (a : Nat), pathEnd a (l ++ [c]) = c := by
  intro l
  induction l with
  | nil => intro a; rfl
  | cons b t ih => intro a; exact ih b

theorem chainB_snoc {es : List Entry} {c : Nat} :
    ∀ (l : List Nat) (a : Nat), chainB es a l = true →
      hasEdge es (pathEnd a l) c = true → chainB es a (l ++ [c]) = true := by
  intro l
  induction l with
  | nil =>
    intro a _ hedge
    simp only [List.nil_append, chainB, Bool.and_eq_true]
    exact ⟨hedge, trivial⟩
  | cons b t ih =>
    intro a hch hedge
    simp only [chainB, Bool.and_eq_true] at hch
    simp only [List.cons_append, chainB, Bool.and_eq_true]
    exact ⟨hch.1, ih b hch.2 hedge⟩

theorem chainB_stepsDown {es : List Entry} {v : Nat → Nat}
    (hv : ∀ k, hasEdge es (v (k + 1)) (v k) = true) (b : Nat) :
    ∀ n, chainB es (v (b + n)) (stepsDown v b n) = true := by
  intro n
  induction n with
  | zero => rfl
  | succ m ih =>
    simp only [stepsDown, chainB, Bool.and_eq_true]
    exact ⟨hv (b + m), ih⟩

theorem pathEnd_stepsDown (v : Nat → Nat) (b : Nat) :
    ∀ n, pathEnd (v (b + n)) (stepsDown v b n) = v b := by
  intro n
  induction n with
  | zero => rfl
  | succ m ih => exact ih

/-- A sequence following edges backwards that repeats a value yields a
cycle. -/
theorem cycle_of_seq {es : List Entry} {v : Nat → Nat}
    (hv : ∀ k, hasEdge es (v (k + 1)) (v k) = true)
    {i j : Nat} (hij : i < j) (heq : v i = v j) :
    ∃ l, isCycleB es l = true := by
  refine ⟨v (j - 1) :: stepsDown v i (j - 1 - i), ?_⟩
  simp only [isCycleB]
  have hidx : i + (j - 1 - i) = j - 1 := by omega
  have hch : chainB es (v (j - 1)) (stepsDown v i (j - 1 - i)) = true := by
    have := chainB_stepsDown hv i (j - 1 - i)
    rwa [hidx] at this
  have hend : pathEnd (v (j - 1)) (stepsDown v i (j - 1 - i)) = v i := by
    have := pathEnd_stepsDown v i (j - 1 - i)
    rwa [hidx] at this
  have hclose : hasEdge es (v i) (v (j - 1)) = true := by
    have h1 := hv (j - 1)
    have h2 : j - 1 + 1 = j := by omega
    rw [h2] at h1
    rwa [← heq] at h1
  have := chainB_snoc (stepsDown v i (j - 1 - i)) (v (j - 1)) hch (by rw [hend]; exact hclose)
  exact this

/-- If every node of a nonempty list has a predecessor inside the list, the
edge relation has a cycle (finite pigeonhole). -/
theorem cycle_of_all_pred {es : List Entry} {S : List Nat} (hS : S ≠ [])
    (h : ∀ x ∈ S, ∃ y, y ∈ S ∧ hasEdge es y x = true) :
    ∃ l, isCycleB es l = true := by
  classical
  obtain ⟨x₀, hx₀⟩ := List.exists_mem_of_ne_nil S hS
  choose g hg₁ hg₂ using h
  let F : {x // x ∈ S} → {x // x ∈ S} := fun x => ⟨g x.1 x.2, hg₁ x.1 x.2⟩
  let u : Nat → {x // x ∈ S} := fun k => F^[k] ⟨x₀, hx₀⟩
  have hstep : ∀ k, u (k + 1) = F (u k) := by
    intro k
    simp only [u, Function.iterate_succ_apply']
  have hedge : ∀ k, hasEdge es ((u (k + 1)).1) ((u k).1) = true := by
    intro k
    rw [hstep k]
    exact hg₂ (u k).1 (u k).2
  have hmaps : ∀ k ∈ Finset.range (S.length + 1), (u k).1 ∈ S.toFinset := by
    intro k _
    exact List.mem_toFinset.mpr (u k).2
  have hcard : S.toFinset.card < (Finset.range (S.length + 1)).card := by
    rw [Finset.card_range]
    exact Nat.lt_succ_of_le S.toFinset_card_le
  obtain ⟨a, ha, b, hb, hab, habeq⟩ :=
    Finset.exists_ne_map_eq_of_card_lt_of_maps_to hcard hmaps
  rcases Nat.lt_or_ge a b with hlt | hge
  · exact cycle_of_seq hedge hlt habeq
  · have hlt : b < a := by omega
    exact cycle_of_seq hedge hlt habeq.symm

/-- If the loop stalls (no pending entry is ready) on a well-formed graph
while the unplaced identities are exactly the pending ones, there is a
dependency cycle. -/
theorem stall_cycle {es : List Entry} (hwf : wellFormedB es = true)
    {pending : List Entry} {placed : List TaskId}
    (hsub : List.Sublist pending es)
    (hinv : ∀ x, x ∈ declaredTasks es → x ∉ placed → x ∈ declaredTasks pending)
    (hne : pending ≠ [])
    (hstall : splitReady placed pending = none) :
    ∃ l, isCycleB es l = true := by
  have hall := splitReady_eq_none hstall
  apply @cycle_of_all_pred es (declaredTasks pending)
  · intro hempty
    apply hne
    cases pending with
    | nil => rfl
    | cons p ps => simp [declaredTasks] at hempty
  · intro x hx
    obtain ⟨e, he, hex⟩ : ∃ e ∈ pending, e.1 = x := by
      simp only [declaredTasks, List.mem_map] at hx
      obtain ⟨e, he, hex⟩ := hx
      exact ⟨e, he, hex⟩
    have hnready := hall e he
    have hy : ∃ i ∈ e.2, memB i placed = false := by
      by_contra hcon
      push_neg at hcon
      have : ready placed e = true := by
        apply List.all_eq_true.mpr
        intro i hi
        have := hcon i hi
        cases hmi : memB i placed
        · exact absurd hmi this
        · rfl
      rw [this] at hnready; cases hnready
    obtain ⟨i, hi, hnp⟩ := hy
    have hes : e ∈ es := List.Sublist.mem he hsub
    have hidecl : i ∈ declaredTasks es := by
      have h1 := List.all_eq_true.mp hwf e hes
      have h2 := List.all_eq_true.mp h1 i hi
      exact (memB_iff i (declaredTasks es)).mp (by simpa using h2)
    have hinot : i ∉ placed := by
      intro hcon
      rw [(memB_iff i placed).mpr hcon] at hnp
      cases hnp
    have hipend : i ∈ declaredTasks pending := hinv i hidecl hinot
    refine ⟨i, hipend, ?_⟩
    rw [← hex]
    exact hasEdge_of_entry hes hi

/-- If the ordering loop fails, the edge relation has a cycle. -/
theorem kahnLoop_none_cycle {es : List Entry} (hwf : wellFormedB es = true) :
    ∀ (fuel : Nat) (pending : List Entry) (placed : List TaskId),
      fuel = pending.length →
      List.Sublist pending es →
      (∀ x, x ∈ declaredTasks es → x ∉ placed → x ∈ declaredTasks pending) →
      kahnLoop fuel pending placed = none →
      ∃ l, isCycleB es l = true := by
  intro fuel
  induction fuel with
  | zero =>
    intro pending placed hlen hsub hinv h
    have : pending = [] := List.length_eq_zero.mp hlen.symm
    subst this
    simp [kahnLoop] at h
  | succ n ih =>
    intro pending placed hlen hsub hinv h
    cases pending with
    | nil => simp [kahnLoop] at h
    | cons p ps =>
      simp only [kahnLoop] at h
      cases hsp : splitReady placed (p :: ps) with
      | none =>
        exact stall_cycle hwf hsub hinv (by simp) hsp
      | some pr =>
        rw [hsp] at h
        obtain ⟨e, rest⟩ := pr
        obtain ⟨l₁, l₂, hpend, hrest, -, -⟩ := splitReady_eq_some hsp
        have hlen' : n = rest.length := by
          have h1 : (p :: ps).length = l₁.length + 1 + l₂.length := by
            rw [hpend]; simp; omega
          have h2 : rest.length = l₁.length + l₂.length := by
            rw [hrest]; simp
          omega
        have hsubr : List.Sublist rest es := by
          apply List.Sublist.trans _ hsub
          rw [hrest, hpend]
          exact List.Sublist.append (List.Sublist.refl l₁) (List.sublist_cons_self e l₂)
        have hinvr : ∀ x, x ∈ declaredTasks es → x ∉ placed ++ [e.1] →
            x ∈ declaredTasks rest := by
          intro x hxd hxp
          have hx1 : x ∉ placed := fun hc => hxp (List.mem_append.mpr (Or.inl hc))
          have hx2 : x ≠ e.1 := fun hc => hxp (List.mem_append.mpr (Or.inr (by simp [hc])))
          have hxpend := hinv x hxd hx1
          rw [hpend] at hxpend
          simp only [declaredTasks, List.map_append, List.map_cons, List.mem_append,
            List.mem_cons] at hxpend
          rw [hrest]
          simp only [declaredTasks, List.map_append, List.mem_append]
          rcases hxpend with h1 | h2
          · exact Or.inl h1
          · rcases h2 with h3 | h4
            · exact absurd h3 hx2
            · exact Or.inr h4
        exact ih rest (placed ++ [e.1]) hlen' hsubr hinvr h

/-! ### An order respecting the edges excludes cycles -/

theorem respectsB_edge {es : List Entry} {ord : List TaskId}
    (hres : respectsB es ord = true) {a b : TaskId}
    (hedge : hasEdge es a b = true) : posOf a ord < posOf b ord := by
  obtain ⟨e, he, heb, ha⟩ := hasEdge_spec.mp hedge
  have h1 := List.all_eq_true.mp hres e he
  have h2 := List.all_eq_true.mp h1 a ha
  rw [heb] at h2
  simpa using h2

theorem chain_posOf_lt {es : List Entry} {ord : List TaskId}
    (hres : respectsB es ord = true) :
    ∀ (l : List TaskId) (a : TaskId), l ≠ [] → chainB es a l = true →
      posOf a ord < posOf (pathEnd a l) ord := by
  intro l
  induction l with
  | nil => intro a h; cases h rfl
  | cons b t ih =>
    intro a _ hch
    simp only [chainB, Bool.and_eq_true] at hch
    cases t with
    | nil => exact respectsB_edge hres hch.1
    | cons c t' =>
      have h1 : posOf a ord < posOf b ord := respectsB_edge hres hch.1
      have h2 := ih b (by simp) hch.2
      exact Nat.lt_trans h1 h2

theorem no_cycle_of_respects {es : List Entry} {ord : List TaskId}
    (hres : respectsB es ord = true) : ∀ l, isCycleB es l = false := by
  intro l
  cases hcy : isCycleB es l
  · rfl
  · exfalso
    match l, hcy with
    | v :: t, hcy =>
      simp only [isCycleB] at hcy
      have h1 := chain_posOf_lt hres (t ++ [v]) v (by simp) hcy
      rw [pathEnd_append_last] at h1
      exact Nat.lt_irrefl _ h1

/-! ### The greedy declaration-order characterisation -/

theorem filter_step {es : List Entry} (hnd : (declaredTasks es).Nodup)
    {placed : List TaskId} {pending rest : List Entry} {e : Entry}
    (hpf : pending = es.filter (fun f => !(memB f.1 placed)))
    (hsp : splitReady placed pending = some (e, rest)) :
    rest = es.filter (fun f => !(memB f.1 (placed ++ [e.1]))) := by
  obtain ⟨l₁, l₂, hpend, hrest, -, -⟩ := splitReady_eq_some hsp
  have hstep : es.filter (fun f => !(memB f.1 (placed ++ [e.1]))) =
      pending.filter (fun f => !(decide (e.1 = f.1))) := by
    rw [hpf, List.filter_filter]
    apply List.filter_congr
    intro f _
    rw [memB_append]
    cases hm : memB f.1 placed
    · simp [memB]
    · simp [memB]
  have hndp : (declaredTasks pending).Nodup := by
    rw [hpf]
    exact List.Nodup.sublist (List.Sublist.map _ (List.filter_sublist es)) hnd
  rw [hpend] at hndp
  have hmape : declaredTasks (l₁ ++ e :: l₂) =
      declaredTasks l₁ ++ e.1 :: declaredTasks l₂ := by
    simp [declaredTasks]
  rw [hmape] at hndp
  have hl₁ : ∀ f ∈ l₁, e.1 ≠ f.1 := by
    intro f hf hc
    have h1 : e.1 ∈ declaredTasks l₁ := by
      rw [hc]; exact List.mem_map_of_mem _ hf
    exact (List.disjoint_of_nodup_append hndp) h1 (by simp)
  have hl₂ : ∀ f ∈ l₂, e.1 ≠ f.1 := by
    intro f hf hc
    have hsub : (e.1 :: declaredTasks l₂).Nodup :=
      List.Nodup.sublist (List.sublist_append_right _ _) hndp
    have h2 : e.1 ∈ declaredTasks l₂ := by
      rw [hc]; exact List.mem_map_of_mem _ hf
    exact (List.nodup_cons.mp hsub).1 h2
  rw [hstep, hpend]
  rw [List.filter_append, List.filter_cons]
  have he : (!(decide (e.1 = e.1))) = false := by simp
  rw [he]
  simp only [Bool.false_eq_true, if_false]
  rw [List.filter_eq_self.mpr (fun f hf => by simpa using hl₁ f hf),
    List.filter_eq_self.mpr (fun f hf => by simpa using hl₂ f hf)]
  exact hrest

theorem kahnLoop_greedy {es : List Entry} (hnd : (declaredTasks es).Nodup) :
    ∀ (fuel : Nat) (pending : List Entry) (placed ord : List TaskId),
      pending = es.filter (fun f => !(memB f.1 placed)) →
      kahnLoop fuel pending placed = some ord →
      ∀ k, placed.length ≤ k → k < ord.length →
        (firstReady es (ord.take k)).map (fun e => e.1) = ord[k]? := by
  intro fuel
  induction fuel with
  | zero =>
    intro pending placed ord hpf h k hk1 hk2
    simp only [kahnLoop] at h
    by_cases hp : pending.isEmpty
    · rw [if_pos hp] at h
      have heq : placed = ord := by simpa using h
      subst heq
      omega
    · rw [if_neg hp] at h; cases h
  | succ n ih =>
    intro pending placed ord hpf h k hk1 hk2
    cases hpc : pending with
    | nil =>
      rw [hpc] at h
      simp only [kahnLoop] at h
      have heq : placed = ord := by simpa using h
      subst heq
      omega
    | cons p ps =>
      rw [hpc] at h
      simp only [kahnLoop] at h
      cases hsp : splitReady placed (p :: ps) with
      | none => rw [hsp] at h; cases h
      | some pr =>
        rw [hsp] at h
        obtain ⟨e, rest⟩ := pr
        rw [← hpc] at hsp
        have hrest : rest = es.filter (fun f => !(memB f.1 (placed ++ [e.1]))) :=
          filter_step hnd hpf hsp
        obtain ⟨tail, htail⟩ := kahnLoop_extends n rest (placed ++ [e.1]) ord h
        rcases Nat.eq_or_lt_of_le hk1 with hk | hk
        · -- the position being filled right now
          have hordeq : ord = placed ++ e.1 :: tail := by rw [htail]; simp
          have htake : ord.take k = placed := by
            rw [hordeq, ← hk]
            exact List.take_left placed (e.1 :: tail)
          have hget : ord[k]? = some e.1 := by
            rw [hordeq, ← hk]
            rw [List.getElem?_append_right (Nat.le_refl _)]
            simp
          rw [htake, hget]
          have hfr : firstReady es placed = some e := by
            unfold firstReady
            rw [← hpf]
            exact splitReady_find hsp
          rw [hfr]
          rfl
        · -- strictly later positions: induction hypothesis
          apply ih rest (placed ++ [e.1]) ord hrest h k _ hk2
          simpa using hk

theorem respectsB_of_forall {es : List Entry} {ord : List TaskId}
    (h : ∀ e ∈ es, ∀ i ∈ e.2, posOf i ord < posOf e.1 ord) :
    respectsB es ord = true := by
  apply List.all_eq_true.mpr
  intro e he
  apply List.all_eq_true.mpr
  intro i hi
  simpa using h e he i hi

theorem filter_nil_placed (es : List Entry) :
    es = es.filter (fun f => !(memB f.1 [])) :=
  (List.filter_eq_self.mpr (fun _ _ => rfl)).symm

/-! ### Claims C3, C4, C5: graph construction -/

/-- C3 (amended): for every collection of entries with pairwise-distinct task
identities, in which every referenced input task is itself declared and whose
edge relation is acyclic, `WorkflowGraph` construction succeeds and produces a
topological order in which every task appears after all of its declared input
tasks; the order is a permutation of the declared tasks and follows the
greedy declaration-order tie-breaking rule, so it is the same on every
construction of the same entries. -/
theorem build_topological_order (es : List Entry)
    (hnd : (declaredTasks es).Nodup)
    (hwf : wellFormedB es = true)
    (hac : ∀ l, isCycleB es l = false) :
    ∃ g, WorkflowGraph.build es = .ok g ∧ g.entries = es ∧
      respectsB es g.order = true ∧
      g.order.Perm (declaredTasks es) ∧
      greedyOrder es g.order := by
  unfold WorkflowGraph.build
  rw [if_pos hwf]
  cases hk : kahnLoop es.length es [] with
  | none =>
    exfalso
    obtain ⟨l, hl⟩ := kahnLoop_none_cycle hwf es.length es [] rfl
      (List.Sublist.refl es) (fun x hx _ => hx) hk
    rw [hac l] at hl
    cases hl
  | some ord =>
    refine ⟨⟨es, ord⟩, rfl, rfl, ?_, ?_, ?_⟩
    · obtain ⟨tail, -, -, hresp⟩ :=
        kahnLoop_sound es.length es [] ord (fun x _ => List.not_mem_nil x) hnd hk
      exact respectsB_of_forall hresp
    · obtain ⟨tail, htail, hperm, -⟩ :=
        kahnLoop_sound es.length es [] ord (fun x _ => List.not_mem_nil x) hnd hk
      simpa [htail] using hperm
    · intro k
      by_cases hkl : k < ord.length
      · exact Or.inr (kahnLoop_greedy hnd es.length es [] ord (filter_nil_placed es)
          hk k (Nat.zero_le k) hkl)
      · exact Or.inl (Nat.le_of_not_lt hkl)

/-- C3 counterexample: the collection `[(B, [A])]` with `A` never declared is
acyclic (its only edge runs from `A` to `B`), yet construction does not
succeed — it fails with a `GraphError` because the input reference `A` is
undeclared, as claim C5 and spec §4.1 require. -/
theorem build_acyclic_not_sufficient :
    (∀ l, isCycleB [((1 : TaskId), [0])] l = false) ∧
    ∀ g, WorkflowGraph.build [((1 : TaskId), [0])] ≠ Except.ok g := by
  constructor
  · apply @no_cycle_of_single_edge [((1 : TaskId), [0])] 0 1
    · intro a b h
      obtain ⟨e, he, heb, ha⟩ := hasEdge_spec.mp h
      have he' : e = ((1 : TaskId), [0]) := by simpa using he
      subst he'
      simp only [List.mem_singleton] at ha
      exact ⟨ha, heb.symm⟩
    · decide
  · intro g h
    have hbuild : WorkflowGraph.build [((1 : TaskId), [0])] =
        Except.error GraphError.undeclaredInput := rfl
    rw [hbuild] at h
    exact Except.noConfusion h

/-- C3 witness: the test graph `[(A, []), (B, [A, A])]` satisfies all
hypotheses of the amended claim, and construction succeeds with an order
respecting the edges. -/
theorem build_topological_order_witness :
    ∃ g, WorkflowGraph.build [((0 : TaskId), []), (1, [0, 0])] = .ok g ∧
      g.entries = [((0 : TaskId), []), (1, [0, 0])] ∧
      respectsB [((0 : TaskId), []), (1, [0, 0])] g.order = true ∧
      g.order.Perm (declaredTasks [((0 : TaskId), []), (1, [0, 0])]) ∧
      greedyOrder [((0 : TaskId), []), (1, [0, 0])] g.order := by
  apply build_topological_order [((0 : TaskId), []), (1, [0, 0])]
    (by decide) (by decide)
  apply @no_cycle_of_single_edge [((0 : TaskId), []), (1, [0, 0])] 0 1
  · intro a b h
    obtain ⟨e, he, heb, ha⟩ := hasEdge_spec.mp h
    rcases List.mem_cons.mp he with rfl | he2
    · cases ha
    · have he' : e = ((1 : TaskId), [0, 0]) := by simpa using he2
      subst he'
      have ha' : a = 0 := by
        rcases List.mem_cons.mp ha with h1 | h2
        · exact h1
        · simpa using h2
      exact ⟨ha', heb.symm⟩
  · decide

/-- C4: for every collection of entries (with pairwise-distinct task
identities, per the data model of spec §3) whose edge relation contains a
cycle, `WorkflowGraph` construction fails with a `GraphError`, and no graph
value is produced. -/
theorem build_cyclic_fails (es : List Entry)
    (hnd : (declaredTasks es).Nodup)
    (hcy : ∃ l, isCycleB es l = true) :
    ∃ err, WorkflowGraph.build es = .error err := by
  unfold WorkflowGraph.build
  cases hwf : wellFormedB es with
  | false => exact ⟨GraphError.undeclaredInput, rfl⟩
  | true =>
    rw [if_pos rfl]
    cases hk : kahnLoop es.length es [] with
    | none => exact ⟨GraphError.cyclicDependencies, rfl⟩
    | some ord =>
      exfalso
      obtain ⟨tail, -, -, hresp⟩ :=
        kahnLoop_sound es.length es [] ord (fun x _ => List.not_mem_nil x) hnd hk
      obtain ⟨l, hl⟩ := hcy
      rw [no_cycle_of_respects (respectsB_of_forall hresp) l] at hl
      cases hl

/-- C4 witness: the two-task cycle `A → B → A` is rejected. -/
theorem build_cyclic_fails_witness :
    ∃ err, WorkflowGraph.build [((0 : TaskId), [1]), (1, [0])] = .error err :=
  build_cyclic_fails [((0 : TaskId), [1]), (1, [0])] (by decide)
    ⟨[0, 1], by decide⟩

/-- C5: construction accepts fan-in duplication (an entry may list the same
declared task more than once among its inputs), but fails with a `GraphError`
whenever some entry references an input task that is not itself declared; in
particular `[(B, [A, A])]` with `A` never declared fails construction. -/
theorem build_undeclared_input_rejected (es : List Entry) (e : Entry)
    (i : TaskId) (he : e ∈ es) (hi : i ∈ e.2) (hid : i ∉ declaredTasks es) :
    WorkflowGraph.build es = .error GraphError.undeclaredInput ∧
    (∃ g, WorkflowGraph.build [((0 : TaskId), []), (1, [0, 0])] = .ok g) ∧
    WorkflowGraph.build [((1 : TaskId), [0, 0])] =
      .error GraphError.undeclaredInput := by
  refine ⟨?_, ⟨⟨[((0 : TaskId), []), (1, [0, 0])], [0, 1]⟩, rfl⟩, rfl⟩
  have hwf : wellFormedB es = false := by
    cases hwfc : wellFormedB es with
    | false => rfl
    | true =>
      exfalso
      have h1 := List.all_eq_true.mp hwfc e he
      have h2 := List.all_eq_true.mp h1 i hi
      exact hid ((memB_iff i (declaredTasks es)).mp (by simpa using h2))
  unfold WorkflowGraph.build
  rw [hwf]
  rfl

/-- C5 witness: instantiated at the concrete scenario `[(B, [A, A])]` with
`A` undeclared. -/
theorem build_undeclared_input_rejected_witness :
    WorkflowGraph.build [((1 : TaskId), [0, 0])] =
      .error GraphError.undeclaredInput ∧
    (∃ g, WorkflowGraph.build [((0 : TaskId), []), (1, [0, 0])] = .ok g) ∧
    WorkflowGraph.build [((1 : TaskId), [0, 0])] =
      .error GraphError.undeclaredInput :=
  build_undeclared_input_rejected [((1 : TaskId), [0, 0])] (1, [0, 0]) 0
    (by decide) (by decide) (by decide)

/-! ### The executor, modelled from the spec -/

/-- An opaque output value produced by a task. -/
abbrev Value := Nat

/-- An opaque keyword-argument bundle (names with opaque values). -/
abbrev Kwargs := List (String × Value)

/-- Modelled from the spec: an execution request is "a mapping from TaskNode
identity to a keyword-argument bundle supplied only to that node for one
particular run; tasks not present in the mapping receive no extra arguments"
(spec §3). -/
abbrev Request := List (TaskId × Kwargs)

/-- Association-list lookup keyed by task identity. -/
def alookup {α : Type} : List (Nat × α) → Nat → Option α
  | [], _ => none
  | (k, v) :: t, a => if k = a then some v else alookup t a

/-- The keyword arguments a request addresses to a task: the bundle mapped to
it, or the empty bundle when the task is not named in the request. -/
def kwargsFor (req : Request) (t : TaskId) : Kwargs :=
  (alookup req t).getD []

/-- Modelled from the spec: a task is "any callable accepting zero or more
positional inputs (the outputs of its declared upstream tasks) plus an
arbitrary keyword-argument bundle, and returning a single value used as its
output" (spec §6).  `none` models an invocation that raises.  Tasks are
reentrant/stateless across invocations, the documented constraint of
spec §5. -/
structure TaskSpec where
  invoke : TaskId → List Value → Kwargs → Option Value

/-- The declared inputs of a task in a graph (empty for absent tasks). -/
def nodeInputs (g : WorkflowGraph) (t : TaskId) : List TaskId :=
  ((g.entries.find? (fun e => decide (e.1 = t))).map (fun e => e.2)).getD []

/-- Outcome of a single execution: success, or failure carrying the identity
of the raising task. -/
inductive Outcome
  | success
  | failed (t : TaskId)
deriving DecidableEq, Repr

/-- Result of one execution: the outcome together with the trace of task
invocations actually performed, each with the keyword bundle it received. -/
structure Execution where
  outcome : Outcome
  calls : List (TaskId × Kwargs)
deriving DecidableEq, Repr

instance : Inhabited Execution := ⟨⟨Outcome.success, []⟩⟩

/-- Modelled from the spec: one RunContext traversal (spec §4.2): visit the
nodes in the precomputed topological order; for each node gather the outputs
of its declared inputs, take the keyword arguments addressed to it by this
execution's request, and invoke the task; the single return value becomes the
node's output.  A raising invocation stops the traversal: the remaining nodes
are not visited and the outcome records the failing task. -/
def runNodes (ts : TaskSpec) (g : WorkflowGraph) (req : Request) :
    List TaskId → List (TaskId × Value) → Execution
  | [], _ => ⟨Outcome.success, []⟩
  | t :: rest, outs =>
    match ts.invoke t ((nodeInputs g t).map (fun i => (alookup outs i).getD 0))
        (kwargsFor req t) with
    | none => ⟨Outcome.failed t, [(t, kwargsFor req t)]⟩
    | some v =>
      ⟨(runNodes ts g req rest ((t, v) :: outs)).outcome,
        (t, kwargsFor req t) :: (runNodes ts g req rest ((t, v) :: outs)).calls⟩

/-- One full execution of the graph for one request: a fresh RunContext
traversed in the graph's topological order. -/
def execOne (ts : TaskSpec) (g : WorkflowGraph) (req : Request) : Execution :=
  runNodes ts g req g.order []

/-- Modelled from the spec: the indices of the requests handled by one worker
when `n` requests are distributed round-robin over `wc` workers
(spec §5: one unit of concurrency per execution request). -/
def workerIndices (n wc w : Nat) : List Nat :=
  (List.range n).filter (fun i => decide (i % wc = w))

/-- The index-tagged results produced by all workers; the order of this pool
output reflects the distribution across workers, not the submission order. -/
def runPairs (ts : TaskSpec) (g : WorkflowGraph) (reqs : List Request)
    (wc : Nat) : List (Nat × Execution) :=
  (List.range wc).flatMap (fun w =>
    (workerIndices reqs.length wc w).map
      (fun i => (i, execOne ts g (reqs.getD i []))))

/-- Modelled from the spec: `run(executionRequests, workerCount)` (spec §4.2)
distributes the requests over `workerCount` workers and collects exactly one
result per request, indexed by original submission order rather than
completion order; an invalid configuration — no workers or an empty request
list — is rejected (spec §7, ConfigurationError), modelled as `none`. -/
def EOExecutor.run (ts : TaskSpec) (g : WorkflowGraph) (reqs : List Request)
    (workerCount : Nat) : Option (List Execution) :=
  if workerCount = 0 ∨ reqs = [] then none
  else some ((List.range reqs.length).map
    (fun i => (alookup (runPairs ts g reqs workerCount) i).getD default))

/-! ### Lemmas about the executor -/

theorem alookup_eq_some_of_mem_key {α : Type} :
    ∀ (l : List (Nat × α)) (a : Nat), a ∈ l.map (fun p => p.1) →
      ∃ b, alookup l a = some b := by
  intro l
  induction l with
  | nil => intro a h; cases h
  | cons p t ih =>
    intro a h
    obtain ⟨k, v⟩ := p
    by_cases hk : k = a
    · exact ⟨v, by simp [alookup, hk]⟩
    · have ht : a ∈ t.map (fun p => p.1) := by
        rcases List.mem_cons.mp h with h1 | h2
        · exact absurd h1.symm hk
        · exact h2
      obtain ⟨b, hb⟩ := ih a ht
      exact ⟨b, by simp [alookup, hk, hb]⟩

theorem alookup_mem {α : Type} :
    ∀ (l : List (Nat × α)) (a : Nat) (b : α),
      alookup l a = some b → (a, b) ∈ l := by
  intro l
  induction l with
  | nil => intro a b h; cases h
  | cons p t ih =>
    intro a b h
    obtain ⟨k, v⟩ := p
    by_cases hk : k = a
    · subst hk
      rw [show alookup ((k, v) :: t) k = some v from by simp [alookup]] at h
      obtain rfl := Option.some.inj h
      simp
    · simp only [alookup, hk, if_false] at h
      exact List.mem_cons_of_mem _ (ih a b h)

theorem runPairs_val {ts : TaskSpec} {g : WorkflowGraph} {reqs : List Request}
    {wc : Nat} {i : Nat} {x : Execution}
    (h : (i, x) ∈ runPairs ts g reqs wc) :
    x = execOne ts g (reqs.getD i []) := by
  obtain ⟨w, -, hmem⟩ := List.mem_flatMap.mp h
  obtain ⟨i', -, heq⟩ := List.mem_map.mp hmem
  obtain ⟨h1, h2⟩ := Prod.mk.injEq .. |>.mp heq
  rw [← h2, h1]

theorem runPairs_key {ts : TaskSpec} {g : WorkflowGraph} {reqs : List Request}
    {wc : Nat} (hwc : wc ≠ 0) {i : Nat} (hi : i < reqs.length) :
    i ∈ (runPairs ts g reqs wc).map (fun p => p.1) := by
  apply List.mem_map.mpr
  refine ⟨(i, execOne ts g (reqs.getD i [])), ?_, rfl⟩
  apply List.mem_flatMap.mpr
  refine ⟨i % wc, ?_, ?_⟩
  · exact List.mem_range.mpr (Nat.mod_lt i (Nat.pos_of_ne_zero hwc))
  · apply List.mem_map.mpr
    refine ⟨i, ?_, rfl⟩
    unfold workerIndices
    apply List.mem_filter.mpr
    exact ⟨List.mem_range.mpr hi, by simp⟩

theorem range_map_getD {α β : Type} (f : α → β) (d : α) :
    ∀ l : List α,
      (List.range l.length).map (fun i => f (l.getD i d)) = l.map f := by
  intro l
  induction l with
  | nil => rfl
  | cons a t ih =>
    show (List.range (t.length + 1)).map _ = _
    rw [List.range_succ_eq_map, List.map_cons, List.map_map]
    have h1 : ((fun i => f ((a :: t).getD i d)) ∘ Nat.succ) =
        (fun i => f (t.getD i d)) := by
      funext i
      rfl
    rw [h1]
    simpa using congrArg (List.cons (f a)) ih

theorem run_eq_map {ts : TaskSpec} {g : WorkflowGraph} {reqs : List Request}
    {workerCount : Nat} (hwc : workerCount ≠ 0) (hne : reqs ≠ []) :
    EOExecutor.run ts g reqs workerCount = some (reqs.map (execOne ts g)) := by
  unfold EOExecutor.run
  rw [if_neg (by simp [hwc, hne])]
  congr 1
  have hpoint : ∀ i ∈ List.range reqs.length,
      (alookup (runPairs ts g reqs workerCount) i).getD default =
        execOne ts g (reqs.getD i []) := by
    intro i hi
    have hilt : i < reqs.length := List.mem_range.mp hi
    obtain ⟨b, hb⟩ := alookup_eq_some_of_mem_key _ i (runPairs_key hwc hilt)
    rw [hb]
    exact runPairs_val (alookup_mem _ i b hb)
  rw [List.map_congr_left hpoint]
  exact range_map_getD (execOne ts g) [] reqs

theorem map_getD_of_lt {α β : Type} (f : α → β) (d : α) (d' : β) :
    ∀ (l : List α) (i : Nat), i < l.length →
      (l.map f).getD i d' = f (l.getD i d) := by
  intro l
  induction l with
  | nil => intro i h; cases h
  | cons a t ih =>
    intro i h
    cases i with
    | zero => rfl
    | succ n =>
      show (t.map f).getD n d' = f (t.getD n d)
      exact ih n (Nat.lt_of_succ_lt_succ h)

theorem getD_of_le {α : Type} (d : α) :
    ∀ (l : List α) (i : Nat), l.length ≤ i → l.getD i d = d := by
  intro l
  induction l with
  | nil => intro i _; cases i <;> rfl
  | cons a t ih =>
    intro i h
    cases i with
    | zero => cases h
    | succ n =>
      show t.getD n d = d
      exact ih n (Nat.le_of_succ_le_succ h)

theorem runNodes_failed_stops (ts : TaskSpec) (g : WorkflowGraph)
    (req : Request) :
    ∀ (order : List TaskId) (outs : List (TaskId × Value)) (t : TaskId),
      (runNodes ts g req order outs).outcome = Outcome.failed t →
      ∃ pre post, order = pre ++ t :: post ∧
        (runNodes ts g req order outs).calls.map (fun c => c.1) = pre ++ [t] := by
  intro order
  induction order with
  | nil =>
    intro outs t h
    simp [runNodes] at h
  | cons t' rest ih =>
    intro outs t h
    cases hinv : ts.invoke t'
        ((nodeInputs g t').map (fun i => (alookup outs i).getD 0))
        (kwargsFor req t') with
    | none =>
      simp only [runNodes, hinv] at h ⊢
      have ht : t' = t := by
        cases h
        rfl
      subst ht
      exact ⟨[], rest, rfl, rfl⟩
    | some v =>
      simp only [runNodes, hinv] at h ⊢
      obtain ⟨pre, post, hsplit, hcalls⟩ := ih ((t', v) :: outs) t h
      refine ⟨t' :: pre, post, by rw [hsplit]; rfl, ?_⟩
      simp only [List.map_cons, hcalls]
      rfl

theorem runNodes_calls_kwargs (ts : TaskSpec) (g : WorkflowGraph)
    (req : Request) :
    ∀ (order : List TaskId) (outs : List (TaskId × Value)) (c : TaskId × Kwargs),
      c ∈ (runNodes ts g req order outs).calls → c.2 = kwargsFor req c.1 := by
  intro order
  induction order with
  | nil =>
    intro outs c h
    simp [runNodes] at h
  | cons t' rest ih =>
    intro outs c h
    cases hinv : ts.invoke t'
        ((nodeInputs g t').map (fun i => (alookup outs i).getD 0))
        (kwargsFor req t') with
    | none =>
      simp only [runNodes, hinv] at h
      have hc : c = (t', kwargsFor req t') := by simpa using h
      rw [hc]
    | some v =>
      simp only [runNodes, hinv] at h
      rcases List.mem_cons.mp h with hc | hc
      · rw [hc]
      · exact ih ((t', v) :: outs) c hc

/-! ### Claims C1, C2, C6: the executor -/

/-- C1: for every non-empty sequence of N execution requests and every worker
count W ≥ 1, `run()` returns exactly N Execution results in the same order as
the input requests — the i-th result is the execution of the i-th request —
and the whole result list is identical for every choice of W: the worker
count controls only the distribution of work, never any individual
outcome. -/
theorem run_ordered_results_any_workers (ts : TaskSpec) (g : WorkflowGraph)
    (reqs : List Request) (workerCount : Nat)
    (hwc : 1 ≤ workerCount) (hne : reqs ≠ []) :
    EOExecutor.run ts g reqs workerCount = some (reqs.map (execOne ts g)) ∧
    (∀ rs, EOExecutor.run ts g reqs workerCount = some rs →
      rs.length = reqs.length ∧
      ∀ i, i < reqs.length →
        rs.getD i default = execOne ts g (reqs.getD i [])) ∧
    (∀ wc', 1 ≤ wc' →
      EOExecutor.run ts g reqs wc' = EOExecutor.run ts g reqs workerCount) := by
  have hwc0 : workerCount ≠ 0 := by omega
  have h1 := @run_eq_map ts g reqs workerCount hwc0 hne
  refine ⟨h1, ?_, ?_⟩
  · intro rs hrs
    rw [h1] at hrs
    obtain rfl := Option.some.inj hrs
    constructor
    · exact List.length_map reqs _
    · intro i hi
      exact map_getD_of_lt (execOne ts g) [] default reqs i hi
  · intro wc' hwc'
    rw [@run_eq_map ts g reqs wc' (by omega) hne, h1]

/-- Concrete task behaviour for witnesses: never raises. -/
def tsAlways : TaskSpec :=
  ⟨fun t ins kw => some (t + ins.length + kw.length)⟩

/-- Concrete task behaviour for witnesses: raises exactly when handed a
non-empty keyword bundle. -/
def tsFailOnKwargs : TaskSpec :=
  ⟨fun _ _ kw => if kw.isEmpty then some 0 else none⟩

/-- The two-node test graph (a source task and a fan-in consumer), with its
topological order. -/
def gDemo : WorkflowGraph := ⟨[(0, []), (1, [0, 0])], [0, 1]⟩

/-- C1 witness: two requests over the demo graph with ten workers. -/
theorem run_ordered_results_any_workers_witness :
    ∃ rs, EOExecutor.run tsAlways gDemo [[], [(0, [("a", 1)])]] 10 = some rs ∧
      rs.length = 2 := by
  have h := run_ordered_results_any_workers tsAlways gDemo
    [[], [(0, [("a", 1)])]] 10 (by decide) (by decide)
  exact ⟨_, h.1, (h.2.1 _ h.1).1⟩

/-- C2: if the execution of request j raises at task t, then `run()` still
completes with a full, ordered result list; the j-th result is marked failed
and carries t as the failing task; the trace of visited nodes of that
execution is the prefix of the topological order ending at t (no later node
of its RunContext is visited); and every other position's result is exactly
what it would be for any batch agreeing on the other requests — the failure
has no effect on the other executions. -/
theorem task_failure_isolated (ts : TaskSpec) (g : WorkflowGraph)
    (reqs reqs' : List Request) (workerCount j : Nat) (t : TaskId)
    (hwc : 1 ≤ workerCount) (hne : reqs ≠ []) (hne' : reqs' ≠ [])
    (hlen : reqs'.length = reqs.length)
    (hagree : ∀ i, i ≠ j → reqs.getD i [] = reqs'.getD i [])
    (hj : j < reqs.length)
    (hfail : (execOne ts g (reqs.getD j [])).outcome = Outcome.failed t) :
    ∃ rs rs', EOExecutor.run ts g reqs workerCount = some rs ∧
      EOExecutor.run ts g reqs' workerCount = some rs' ∧
      rs.length = reqs.length ∧
      (rs.getD j default).outcome = Outcome.failed t ∧
      (∃ pre post, g.order = pre ++ t :: post ∧
        (rs.getD j default).calls.map (fun c => c.1) = pre ++ [t]) ∧
      ∀ i, i ≠ j → rs.getD i default = rs'.getD i default := by
  have hwc0 : workerCount ≠ 0 := by omega
  have h1 := @run_eq_map ts g reqs workerCount hwc0 hne
  have h2 := @run_eq_map ts g reqs' workerCount hwc0 hne'
  refine ⟨reqs.map (execOne ts g), reqs'.map (execOne ts g), h1, h2,
    List.length_map reqs _, ?_, ?_, ?_⟩
  · rw [map_getD_of_lt (execOne ts g) [] default reqs j hj]
    exact hfail
  · rw [map_getD_of_lt (execOne ts g) [] default reqs j hj]
    exact runNodes_failed_stops ts g (reqs.getD j []) g.order [] t hfail
  · intro i hi
    by_cases hlt : i < reqs.length
    · rw [map_getD_of_lt (execOne ts g) [] default reqs i hlt,
        map_getD_of_lt (execOne ts g) [] default reqs' i (by omega),
        hagree i hi]
    · rw [getD_of_le default _ i (by simpa using Nat.le_of_not_lt hlt),
        getD_of_le default _ i (by rw [List.length_map, hlen]; omega)]

/-- C2 witness: over the demo graph, a batch whose second execution hands
task 1 a keyword bundle that makes it raise; the sibling batch replaces only
that request. -/
theorem task_failure_isolated_witness :
    ∃ rs rs',
      EOExecutor.run tsFailOnKwargs gDemo [[], [(1, [("x", 0)])]] 3 = some rs ∧
      EOExecutor.run tsFailOnKwargs gDemo [[], []] 3 = some rs' ∧
      rs.length = 2 ∧
      (rs.getD 1 default).outcome = Outcome.failed 1 ∧
      (∃ pre post, gDemo.order = pre ++ 1 :: post ∧
        (rs.getD 1 default).calls.map (fun c => c.1) = pre ++ [1]) ∧
      ∀ i, i ≠ 1 → rs.getD i default = rs'.getD i default := by
  have h := task_failure_isolated tsFailOnKwargs gDemo
    [[], [(1, [("x", 0)])]] [[], []] 3 1 1 (by decide) (by decide) (by decide)
    (by decide)
    (by
      intro i hi
      match i with
      | 0 => rfl
      | 1 => exact absurd rfl hi
      | n + 2 => rfl)
    (by decide) (by decide)
  exact h

/-- C6: every task invocation performed during an execution receives exactly
the keyword bundle the request addresses to that task — a bundle addressed to
one task is never passed to another's invocation — and a task not named in
the request's mapping is invoked with the empty bundle. -/
theorem kwargs_only_addressed (ts : TaskSpec) (g : WorkflowGraph)
    (req : Request) (c : TaskId × Kwargs)
    (hc : c ∈ (execOne ts g req).calls) :
    c.2 = kwargsFor req c.1 ∧ (alookup req c.1 = none → c.2 = []) := by
  have h1 := runNodes_calls_kwargs ts g req g.order [] c hc
  refine ⟨h1, ?_⟩
  intro hnone
  rw [h1]
  unfold kwargsFor
  rw [hnone]
  rfl

/-- C6 witness: in the demo graph, the call to task 0 under a request that
addresses only task 1 receives the empty bundle. -/
theorem kwargs_only_addressed_witness :
    ((0 : TaskId), ([] : Kwargs)).2 = kwargsFor [(1, [("x", 5)])] 0 ∧
    (alookup [(1, [("x", 5)])] 0 = none →
      ((0 : TaskId), ([] : Kwargs)).2 = []) :=
  kwargs_only_addressed tsAlways gDemo [(1, [("x", 5)])] (0, []) (by decide)

/-! ### Claims C7, C8: the reporting interface -/

/-- Modelled from the spec: `StateError` — "operations invoked out of order
(e.g., requesting a report before any run)" (spec §7). -/
inductive StateError
  | notRun
deriving DecidableEq, Repr

/-- Modelled from the spec: the Executor object holds the graph, the
execution requests, the configured report folder, and the results collected
by the last `run()` — `none` as long as `run()` has never been invoked
(state machine of spec §4.4). -/
structure EOExecutorState where
  workflow : WorkflowGraph
  executionRequests : List Request
  reportFolder : String
  executionResults : Option (List Execution)
deriving Repr

/-- A freshly constructed Executor: `run()` has never been invoked. -/
def EOExecutor.make (g : WorkflowGraph) (reqs : List Request)
    (folder : String) : EOExecutorState :=
  ⟨g, reqs, folder, none⟩

/-- Modelled from the spec: invoking `run()` stores the collected results on
the executor (spec §4.2); with an invalid configuration no results are
recorded. -/
def EOExecutorState.runExec (ts : TaskSpec) (e : EOExecutorState)
    (workerCount : Nat) : EOExecutorState :=
  { e with executionResults :=
      EOExecutor.run ts e.workflow e.executionRequests workerCount }

/-- Modelled from the spec: the rendered report artifact summarises the
ordered results (spec §4.4); its precise text is immaterial here. -/
def renderReport (rs : List Execution) : String :=
  "eo-learn execution report covering " ++ toString rs.length ++ " executions"

/-- Modelled from the spec: `getReportFilename()` "returns the deterministic
path at which the artifact was or will be written — callable before or after
makeReport() executes" (spec §4.4); it reads only the configured folder. -/
def EOExecutorState.getReportFilename (e : EOExecutorState) : String :=
  e.reportFolder ++ "/report.html"

/-- Modelled from the spec: `makeReport()` renders the collected results and
"fails with a StateError (nothing to report)" when `run()` has not populated
any results (spec §4.4); on success the executor is unchanged alongside the
produced artifact. -/
def EOExecutorState.makeReport (e : EOExecutorState) :
    Except StateError (EOExecutorState × String) :=
  match e.executionResults with
  | none => .error .notRun
  | some rs => .ok (e, renderReport rs)

/-- C7: calling `makeReport()` on an Executor on which `run()` has never been
invoked fails with a `StateError`; the error branch carries no report
artifact, so none is produced. -/
theorem makeReport_before_run_fails (g : WorkflowGraph) (reqs : List Request)
    (folder : String) :
    (EOExecutor.make g reqs folder).makeReport =
      Except.error StateError.notRun := rfl

/-- C8: `getReportFilename()` is a pure accessor (a plain function of the
executor state): it returns a non-empty path, the path is unchanged by
running the executor, and a successful `makeReport()` leaves the executor —
and hence the path — untouched, so the same path is returned before and
after the report is written. -/
theorem getReportFilename_pure_stable (ts : TaskSpec) (e : EOExecutorState)
    (workerCount : Nat) :
    e.getReportFilename ≠ "" ∧
    (e.runExec ts workerCount).getReportFilename = e.getReportFilename ∧
    ∀ e' rep, e.makeReport = Except.ok (e', rep) →
      e'.getReportFilename = e.getReportFilename := by
  refine ⟨?_, rfl, ?_⟩
  · intro h
    have hlen := congrArg String.length h
    have h12 : ("/report.html" : String).length = 12 := rfl
    have h0 : ("" : String).length = 0 := rfl
    rw [EOExecutorState.getReportFilename, String.length_append, h12, h0] at hlen
    omega
  · intro e' rep h
    cases hres : e.executionResults with
    | none =>
      rw [EOExecutorState.makeReport, hres] at h
      cases h
    | some rs =>
      rw [EOExecutorState.makeReport, hres] at h
      obtain ⟨he, -⟩ := Prod.mk.injEq .. |>.mp (Except.ok.inj h)
      rw [← he]

/-! ### EOPatch and the core tasks, embedded from `core_tasks.py` -/

/-- The feature types of an EOPatch that carry dictionaries of named array
features (`eolearn.core`); the claims below only exercise these. -/
inductive FeatureType
  | data
  | mask
  | scalar
  | label
  | dataTimeless
  | maskTimeless
  | scalarTimeless
  | labelTimeless
  | metaInfo
deriving DecidableEq, Repr

/-- A named feature: its feature type together with the feature name. -/
abbrev Feature := FeatureType × String

/-- An array value stored under a feature: its shape together with an opaque
payload standing for the numeric contents. -/
structure FeatVal where
  shape : List Nat
  payload : Int
deriving DecidableEq, Repr

/-- The freshly initialized array `np.ones(shape, dtype) * init_value` of `InitializeFeature.execute`. -/
def initArray (shape : List Nat) (v : Int) : FeatVal := ⟨shape, v⟩

/-- Dictionary lookup over the feature bindings. -/
def flookup : List (Feature × FeatVal) → Feature → Option FeatVal
  | [], _ => none
  | (k, v) :: t, f => if k = f then some v else flookup t f

/-- Python dict assignment `eopatch[feature_type][name] = value`: replace the
existing binding or append a new one. -/
def fstore : List (Feature × FeatVal) → Feature → FeatVal →
    List (Feature × FeatVal)
  | [], f, v => [(f, v)]
  | (k, w) :: t, f, v => if k = f then (f, v) :: t else (k, w) :: fstore t f v

/-- An EOPatch, reduced to the named features it holds (`eodata.py`); the
in-place mutation of the Python object becomes explicit state passing. -/
structure EOPatch where
  features : List (Feature × FeatVal)
deriving DecidableEq, Repr

/-- Membership / read access `eopatch[feature_type][name]`. -/
def EOPatch.get (p : EOPatch) (f : Feature) : Option FeatVal :=
  flookup p.features f

/-- Write access `eopatch[feature_type][name] = value`. -/
def EOPatch.set (p : EOPatch) (f : Feature) (v : FeatVal) : EOPatch :=
  ⟨fstore p.features f v⟩

theorem flookup_fstore_self : ∀ (l : List (Feature × FeatVal)) (f : Feature)
    (v : FeatVal), flookup (fstore l f v) f = some v := by
  intro l
  induction l with
  | nil => intro f v; simp [fstore, flookup]
  | cons p t ih =>
    intro f v
    obtain ⟨k, w⟩ := p
    by_cases hk : k = f
    · simp [fstore, hk, flookup]
    · simp only [fstore, hk, if_false, flookup]
      exact ih f v

theorem flookup_fstore_other : ∀ (l : List (Feature × FeatVal))
    (f f' : Feature) (v : FeatVal), f' ≠ f →
      flookup (fstore l f' v) f = flookup l f := by
  intro l
  induction l with
  | nil =>
    intro f f' v hne
    simp only [fstore, flookup]
    rw [if_neg hne]
  | cons p t ih =>
    intro f f' v hne
    obtain ⟨k, w⟩ := p
    by_cases hk : k = f'
    · subst hk
      simp only [fstore, if_pos rfl, flookup]
      rw [if_neg hne, if_neg hne]
    · simp only [fstore, hk, if_false, flookup]
      by_cases hkf : k = f
      · rw [if_pos hkf, if_pos hkf]
      · rw [if_neg hkf, if_neg hkf]
        exact ih f f' v hne

theorem get_set_self (p : EOPatch) (f : Feature) (v : FeatVal) :
    (p.set f v).get f = some v :=
  flookup_fstore_self p.features f v

theorem get_set_other (p : EOPatch) {f f' : Feature} (v : FeatVal)
    (hne : f' ≠ f) : (p.set f' v).get f = p.get f :=
  flookup_fstore_other p.features f f' v hne

/-- The `DuplicateFeature` task (`core_tasks.py`): the parsed triples
(feature type, source name, new name) in iteration order.  The
`deep_copy_data` flag only chooses between aliasing and deep-copying the
array object, which is unobservable for values modelled by content, so it is
not carried. -/
structure DuplicateFeature where
  features : List (FeatureType × String × String)
deriving DecidableEq, Repr

/-- The loop of `DuplicateFeature.execute`: for each triple, first check
`new_feature_name in eopatch[feature_type]` and raise
`ValueError("A feature named '...' already exists.")` if so, otherwise store
the source feature's value under the new name.  The result is the patch as
mutated so far (Python mutates in place) together with the name carried by
the raised `ValueError`, if any.  A missing source feature (a Python
`KeyError`) is defaulted; the claim theorem below therefore assumes the
requested source features exist. -/
def dupRun (p : EOPatch) :
    List (FeatureType × String × String) → EOPatch × Option String
  | [] => (p, none)
  | (ft, old, new) :: rest =>
    if (p.get (ft, new)).isSome then (p, some new)
    else dupRun (p.set (ft, new) ((p.get (ft, old)).getD ⟨[], 0⟩)) rest

/-- The task entry point `DuplicateFeature.execute` (`core_tasks.py` lines 194-214). -/
def DuplicateFeature.execute (task : DuplicateFeature) (p : EOPatch) :
    EOPatch × Option String :=
  dupRun p task.features

/-- The successful stores of a prefix of the duplication loop. -/
def dupApply (p : EOPatch) :
    List (FeatureType × String × String) → EOPatch
  | [] => p
  | (ft, old, new) :: rest =>
    dupApply (p.set (ft, new) ((p.get (ft, old)).getD ⟨[], 0⟩)) rest

theorem dupRun_error_split :
    ∀ (feats : List (FeatureType × String × String)) (p p' : EOPatch)
      (n : String), dupRun p feats = (p', some n) →
      ∃ pre ft' old' post, feats = pre ++ (ft', old', n) :: post ∧
        p' = dupApply p pre ∧ (p'.get (ft', n)).isSome = true := by
  intro feats
  induction feats with
  | nil =>
    intro p p' n h
    simp [dupRun] at h
  | cons x rest ih =>
    intro p p' n h
    obtain ⟨ft, old, new⟩ := x
    by_cases hex : (p.get (ft, new)).isSome = true
    · simp only [dupRun, hex, if_true] at h
      obtain ⟨h1, h2⟩ := Prod.mk.injEq .. |>.mp h
      obtain rfl := Option.some.inj h2
      refine ⟨[], ft, old, rest, rfl, h1.symm, ?_⟩
      rw [← h1]
      exact hex
    · simp only [dupRun, hex, Bool.false_eq_true, if_false] at h
      obtain ⟨pre, ft', old', post, hsplit, happ, hsome⟩ := ih _ p' n h
      exact ⟨(ft, old, new) :: pre, ft', old', post, by rw [hsplit]; rfl, happ, hsome⟩

theorem dupRun_clash_raises :
    ∀ (feats : List (FeatureType × String × String)) (p : EOPatch)
      (ft : FeatureType) (old new : String),
      (ft, old, new) ∈ feats → (p.get (ft, new)).isSome = true →
      ∃ p' n, dupRun p feats = (p', some n) := by
  intro feats
  induction feats with
  | nil => intro p ft old new hmem; cases hmem
  | cons x rest ih =>
    intro p ft old new hmem hex
    obtain ⟨ft1, old1, new1⟩ := x
    by_cases hc : (p.get (ft1, new1)).isSome = true
    · exact ⟨p, new1, by simp [dupRun, hc]⟩
    · have hmem' : (ft, old, new) ∈ rest := by
        rcases List.mem_cons.mp hmem with heq | hm
        · exfalso
          apply hc
          injection heq with h1 hrest2
          injection hrest2 with h2 h3
          rw [← h1, ← h3]
          exact hex
        · exact hm
      have hex2 : (((p.set (ft1, new1) ((p.get (ft1, old1)).getD ⟨[], 0⟩))).get
          (ft, new)).isSome = true := by
        by_cases hsame : ((ft1, new1) : Feature) = (ft, new)
        · rw [hsame, get_set_self]
          rfl
        · rw [get_set_other _ _ hsame]
          exact hex
      obtain ⟨p', n, hn⟩ := ih _ ft old new hmem' hex2
      exact ⟨p', n, by simp [dupRun, hc, hn]⟩

/-- C9: for every EOPatch and every `DuplicateFeature` task whose requested
source features exist in the patch, if some requested new feature name
already exists under its feature type, then `execute` raises a `ValueError`
naming a clashing requested feature, and it raises before storing anything
under that name: at raise time the patch reflects only the loop iterations
strictly before the clashing one, and the clashing name still holds the value
it already had. -/
theorem duplicateFeature_existing_name_raises (task : DuplicateFeature)
    (p : EOPatch) (ft : FeatureType) (old new : String)
    (_hsrcs : ∀ x ∈ task.features, (p.get (x.1, x.2.1)).isSome = true)
    (hmem : (ft, old, new) ∈ task.features)
    (hex : (p.get (ft, new)).isSome = true) :
    (∃ n, (task.execute p).2 = some n) ∧
    ∀ n, (task.execute p).2 = some n →
      ∃ pre ft' old' post,
        task.features = pre ++ (ft', old', n) :: post ∧
        (task.execute p).1 = dupApply p pre ∧
        ((task.execute p).1.get (ft', n)).isSome = true := by
  constructor
  · obtain ⟨p', n, hn⟩ := dupRun_clash_raises task.features p ft old new hmem hex
    exact ⟨n, by rw [DuplicateFeature.execute, hn]⟩
  · intro n hn
    have hsplit : dupRun p task.features = ((task.execute p).1, some n) := by
      rw [DuplicateFeature.execute] at hn ⊢
      rw [← hn]
    obtain ⟨pre, ft', old', post, h1, h2, h3⟩ :=
      dupRun_error_split task.features p (task.execute p).1 n hsplit
    exact ⟨pre, ft', old', post, h1, h2, h3⟩

/-- C9 witness: duplicating `MASK1` into the already-present `MASK2` (the
scenario of `test_core_tasks.py::test_duplicate_feature`). -/
theorem duplicateFeature_existing_name_raises_witness :
    (∃ n, (DuplicateFeature.execute
        ⟨[(FeatureType.mask, "MASK1", "MASK2")]⟩
        ⟨[((FeatureType.mask, "MASK1"), ⟨[5, 2, 1, 1], 3⟩),
          ((FeatureType.mask, "MASK2"), ⟨[5, 2, 1, 1], 3⟩)]⟩).2 = some n) ∧
    ∀ n, (DuplicateFeature.execute
        ⟨[(FeatureType.mask, "MASK1", "MASK2")]⟩
        ⟨[((FeatureType.mask, "MASK1"), ⟨[5, 2, 1, 1], 3⟩),
          ((FeatureType.mask, "MASK2"), ⟨[5, 2, 1, 1], 3⟩)]⟩).2 = some n →
      ∃ pre ft' old' post,
        [(FeatureType.mask, "MASK1", "MASK2")] = pre ++ (ft', old', n) :: post ∧
        (DuplicateFeature.execute
          ⟨[(FeatureType.mask, "MASK1", "MASK2")]⟩
          ⟨[((FeatureType.mask, "MASK1"), ⟨[5, 2, 1, 1], 3⟩),
            ((FeatureType.mask, "MASK2"), ⟨[5, 2, 1, 1], 3⟩)]⟩).1 =
          dupApply ⟨[((FeatureType.mask, "MASK1"), ⟨[5, 2, 1, 1], 3⟩),
            ((FeatureType.mask, "MASK2"), ⟨[5, 2, 1, 1], 3⟩)]⟩ pre ∧
        (((DuplicateFeature.execute
          ⟨[(FeatureType.mask, "MASK1", "MASK2")]⟩
          ⟨[((FeatureType.mask, "MASK1"), ⟨[5, 2, 1, 1], 3⟩),
            ((FeatureType.mask, "MASK2"), ⟨[5, 2, 1, 1], 3⟩)]⟩).1).get
          (ft', n)).isSome = true :=
  duplicateFeature_existing_name_raises
    ⟨[(FeatureType.mask, "MASK1", "MASK2")]⟩
    ⟨[((FeatureType.mask, "MASK1"), ⟨[5, 2, 1, 1], 3⟩),
      ((FeatureType.mask, "MASK2"), ⟨[5, 2, 1, 1], 3⟩)]⟩
    FeatureType.mask "MASK1" "MASK2" (by decide) (by decide) (by decide)

/-- The `InitializeFeature` task (`core_tasks.py`): the requested features,
the shape specification — either a feature to read the shape from or a
concrete shape tuple, as separated by `__init__` — and the fill value; the
NumPy dtype is opaque here. -/
structure InitializeFeature where
  new_features : List Feature
  shape_feature : Option Feature
  shape : Option (List Nat)
  init_value : Int
deriving DecidableEq, Repr

/-- Shape resolution
`eopatch[self.shape_feature].shape if self.shape_feature else self.shape`
of `InitializeFeature.execute`; `none` models the `KeyError` of a missing
shape feature. -/
def resolveShape (task : InitializeFeature) (p : EOPatch) :
    Option (List Nat) :=
  match task.shape_feature with
  | some f => (p.get f).map (fun v => v.shape)
  | none => task.shape

/-- The loop of `InitializeFeature.execute`: add a freshly initialized array
for each requested feature the patch does not already hold —
`set(self.new_features) - set(eopatch.get_feature_list())`. -/
def addAbsent (p : EOPatch) :
    List Feature → List Nat → Int → EOPatch
  | [], _, _ => p
  | f :: rest, shape, v =>
    if (p.get f).isSome then addAbsent p rest shape v
    else addAbsent (p.set f (initArray shape v)) rest shape v

/-- The task entry point `InitializeFeature.execute` (`core_tasks.py` lines
260-274), with the
in-place mutation of the input patch made explicit: the returned patch is the
input patch updated with the added features. -/
def InitializeFeature.execute (task : InitializeFeature) (p : EOPatch) :
    Option EOPatch :=
  match resolveShape task p with
  | none => none
  | some shape => some (addAbsent p task.new_features shape task.init_value)

theorem addAbsent_keeps (shape : List Nat) (iv : Int) :
    ∀ (l : List Feature) (p : EOPatch) (f : Feature) (v : FeatVal),
      p.get f = some v → (addAbsent p l shape iv).get f = some v := by
  intro l
  induction l with
  | nil => intro p f v h; exact h
  | cons f1 rest ih =>
    intro p f v h
    by_cases h1 : (p.get f1).isSome = true
    · simp only [addAbsent, h1, if_true]
      exact ih p f v h
    · simp only [addAbsent, h1, Bool.false_eq_true, if_false]
      have hne : f1 ≠ f := by
        intro hc
        rw [hc, h] at h1
        exact h1 rfl
      apply ih
      rw [get_set_other _ _ hne]
      exact h

theorem addAbsent_frame (shape : List Nat) (iv : Int) :
    ∀ (l : List Feature) (p : EOPatch) (f : Feature),
      f ∉ l → (addAbsent p l shape iv).get f = p.get f := by
  intro l
  induction l with
  | nil => intro p f _; rfl
  | cons f1 rest ih =>
    intro p f hf
    have hne : f1 ≠ f := fun hc => hf (by simp [hc])
    have hrest : f ∉ rest := fun hc => hf (List.mem_cons_of_mem _ hc)
    by_cases h1 : (p.get f1).isSome = true
    · simp only [addAbsent, h1, if_true]
      exact ih p f hrest
    · simp only [addAbsent, h1, Bool.false_eq_true, if_false]
      rw [ih _ f hrest, get_set_other _ _ hne]

theorem addAbsent_adds (shape : List Nat) (iv : Int) :
    ∀ (l : List Feature) (p : EOPatch) (f : Feature),
      f ∈ l → p.get f = none →
      (addAbsent p l shape iv).get f = some (initArray shape iv) := by
  intro l
  induction l with
  | nil => intro p f hf; cases hf
  | cons f1 rest ih =>
    intro p f hf hnone
    by_cases heq : f1 = f
    · subst heq
      have h1 : (p.get f1).isSome = false := by rw [hnone]; rfl
      simp only [addAbsent, h1, Bool.false_eq_true, if_false]
      exact addAbsent_keeps shape iv rest _ f1 _ (get_set_self p f1 _)
    · have hrest : f ∈ rest := by
        rcases List.mem_cons.mp hf with hc | hc
        · exact absurd hc.symm heq
        · exact hc
      by_cases h1 : (p.get f1).isSome = true
      · simp only [addAbsent, h1, if_true]
        exact ih p f hrest hnone
      · simp only [addAbsent, h1, Bool.false_eq_true, if_false]
        apply ih _ f hrest
        rw [get_set_other _ _ heq]
        exact hnone

/-- C10: whenever the shape specification resolves, `InitializeFeature`
adds a freshly initialized array exactly for each requested feature not
already present in the patch; every feature already present — requested or
not — keeps its existing value unchanged; no feature outside the request is
touched; and the returned patch is the input patch so updated (the in-place
mutation of the Python object). -/
theorem initializeFeature_adds_only_missing (task : InitializeFeature)
    (p : EOPatch) (shape : List Nat)
    (hshape : resolveShape task p = some shape) :
    ∃ p', task.execute p = some p' ∧
      (∀ f ∈ task.new_features, p.get f = none →
        p'.get f = some (initArray shape task.init_value)) ∧
      (∀ f v, p.get f = some v → p'.get f = some v) ∧
      (∀ f, f ∉ task.new_features → p'.get f = p.get f) := by
  refine ⟨addAbsent p task.new_features shape task.init_value, ?_, ?_, ?_, ?_⟩
  · rw [InitializeFeature.execute, hshape]
  · intro f hf hnone
    exact addAbsent_adds shape task.init_value task.new_features p f hf hnone
  · intro f v hv
    exact addAbsent_keeps shape task.init_value task.new_features p f v hv
  · intro f hf
    exact addAbsent_frame shape task.init_value task.new_features p f hf

/-- C10 witness: initializing one missing and one present feature with a
concrete shape (the scenario of
`test_core_tasks.py::test_initialize_feature`). -/
theorem initializeFeature_adds_only_missing_witness :
    ∃ p', InitializeFeature.execute
        ⟨[(FeatureType.mask, "test"), (FeatureType.mask, "existing")],
          none, some [5, 10, 10, 3], 123⟩
        ⟨[((FeatureType.mask, "existing"), ⟨[1], 7⟩)]⟩ = some p' ∧
      (∀ f ∈ [((FeatureType.mask, "test") : Feature),
          (FeatureType.mask, "existing")],
        EOPatch.get ⟨[((FeatureType.mask, "existing"), ⟨[1], 7⟩)]⟩ f = none →
        p'.get f = some (initArray [5, 10, 10, 3] 123)) ∧
      (∀ f v, EOPatch.get ⟨[((FeatureType.mask, "existing"), ⟨[1], 7⟩)]⟩ f =
          some v → p'.get f = some v) ∧
      (∀ f, f ∉ [((FeatureType.mask, "test") : Feature),
          (FeatureType.mask, "existing")] →
        p'.get f = EOPatch.get ⟨[((FeatureType.mask, "existing"),
          ⟨[1], 7⟩)]⟩ f) :=
  initializeFeature_adds_only_missing
    ⟨[(FeatureType.mask, "test"), (FeatureType.mask, "existing")],
      none, some [5, 10, 10, 3], 123⟩
    ⟨[((FeatureType.mask, "existing"), ⟨[1], 7⟩)]⟩
    [5, 10, 10, 3] rfl

end EOLearn
